import Mathlib

/-!
# TypeFlow (TYPING-MASTER) core engine — shallow embedding

A shallow embedding of the core typing engine of the repository
(`engine.js`): the `TypingEngine` session state machine, its metric
computations (`accuracy`, `wpm`, `latencySummary`), session persistence
(`persistSession` / `LocalHistoryStorage.saveSession`) and the suggestion
ranking function `generateSuggestions`.

Modelling conventions:
* JavaScript numbers are modelled as rationals (`ℚ`); the special values
  produced by division are captured by the `JsNum` type (`fin q`, `inf`,
  `nan`) where they can arise (the `wpm` metric).
* JavaScript plain objects / `Map`s used as counters are modelled as
  association lists in insertion order: updating an existing key rewrites
  its entry in place, a new key is appended at the end, exactly as object
  property order / `Map` iteration order behave.
* `this.testText[this.cursor]` reads past the end of the array yield
  `undefined` in JavaScript; the expected character is therefore an
  `Option Char` (`none` = `undefined`).  An object key built from
  `undefined` (string `"undefined"`) is likewise modelled by `none`.
* Callbacks (`onUpdate`, `onComplete`) and the storage collaborator are
  modelled by appending their payloads to logs held in the state
  (`renders`, `completions`, `history`); `onKey`/`onStats` receive values
  that are pure functions of the state and the call instant and are not
  logged separately.
* `performance.now()` instants are passed explicitly to the operations
  that read the clock.
* The wall-clock metadata of a session record (`id = Date.now()` and the
  ISO `timestamp` string) is outside the model; all behavioural fields of
  the record are kept.
-/

namespace TypeFlow

/-! ## Association-list counters (JS objects / Maps in insertion order) -/

/-- `getD m k d`: read `m[k]`, defaulting to `d` when the key is absent
(JS `m[k] || d` on counters whose stored values are never falsy). -/
def getD {α β : Type} [DecidableEq α] : List (α × β) → α → β → β
  | [], _, d => d
  | (k', v') :: m, k, d => if k' = k then v' else getD m k d

/-- `bump m k v`: JS `m[k] = (m[k] || 0) + v` (also `Map.set(k, (get(k)||0)+v)`):
update an existing entry in place, else append `(k, v)` at the end. -/
def bump {α β : Type} [DecidableEq α] [Add β] : List (α × β) → α → β → List (α × β)
  | [], k, v => [(k, v)]
  | (k', v') :: m, k, v => if k' = k then (k', v' + v) :: m else (k', v') :: bump m k v

/-- Sum of all stored counts (JS `Object.values(m).reduce((a,b)=>a+b,0)`). -/
def msum {α β : Type} [AddCommMonoid β] (m : List (α × β)) : β :=
  (m.map Prod.snd).sum

/-! ## JS numerics -/

/-- `Math.round`: round half toward positive infinity (`⌊x + 1/2⌋`). -/
def jsRound (q : ℚ) : ℤ := ⌊q + 1/2⌋

/-- `(+x.toFixed(1))`: round to one decimal digit. -/
def round1 (q : ℚ) : ℚ := (jsRound (q * 10) : ℚ) / 10

/-- A JavaScript number that may be an infinity or `NaN` (division results). -/
inductive JsNum : Type
  | fin (q : ℚ)
  | inf
  | nan
deriving DecidableEq

/-- The character class of the JS regexp `\s` (whitespace). -/
def jsWhitespace (c : Char) : Bool :=
  let n := c.toNat
  n = 9 ∨ n = 10 ∨ n = 11 ∨ n = 12 ∨ n = 13 ∨ n = 32 ∨ n = 160 ∨ n = 5760 ∨
    (8192 ≤ n ∧ n ≤ 8202) ∨ n = 8232 ∨ n = 8233 ∨ n = 8239 ∨ n = 8287 ∨
    n = 12288 ∨ n = 65279

/-- A counter key: a character, or `none` for the JS `undefined` read past
the end of the text (whose object-key string `"undefined"` is not whitespace). -/
abbrev SKey := Option Char

/-- Whitespace test on a counter key (`/\s/.test(char)`). -/
def keyWhitespace : SKey → Bool
  | some c => jsWhitespace c
  | none => false

/-! ## Session records and render payloads -/

/-- `latencySummary()` result (all fields `toFixed(1)`-rounded). -/
structure LatencySummary : Type where
  count : Nat
  avg : ℚ
  p50 : ℚ
  p90 : ℚ
  p99 : ℚ
deriving DecidableEq

/-- `[...latencies].sort((a,b)=>a-b)`: numeric ascending sort. -/
def sortAsc (l : List ℚ) : List ℚ :=
  l.foldl (fun acc a => acc.takeWhile (fun b => decide (b ≤ a)) ++
    a :: acc.dropWhile (fun b => decide (b ≤ a))) []

/-- `latencySummary()`: `null` without samples, else count/avg and the
p50/p90/p99 percentiles `sorted[min(len-1, ⌊p*len⌋)]`, each to one decimal. -/
def latencySummaryOf (latencies : List ℚ) : Option LatencySummary :=
  if latencies = [] then none
  else
    let sorted := sortAsc latencies
    let sum := sorted.sum
    let idx : ℚ → ℚ := fun p =>
      sorted.getD (min (sorted.length - 1) (⌊p * sorted.length⌋).toNat) 0
    some {
      count := sorted.length
      avg := round1 (sum / sorted.length)
      p50 := round1 (idx (1/2))
      p90 := round1 (idx (9/10))
      p99 := round1 (idx (99/100)) }

/-- The session record built by `persistSession` (behavioural fields). -/
structure SessionRecord : Type where
  length : Nat
  errors : Nat
  accuracy : ℚ
  wpm : JsNum
  errorMap : List (SKey × Nat)
  latency : Option LatencySummary
  confusions : List ((SKey × Char) × Nat)
deriving DecidableEq

/-- Display status of one character in the render payload. -/
inductive CharStatus : Type
  | correct
  | current
  | pending
deriving DecidableEq

/-- Payload of the `onUpdate` render callback (`emitUpdate`). -/
structure RenderState : Type where
  chars : List (Char × CharStatus)
  cursor : Nat
  total : Nat
deriving DecidableEq

/-! ## Engine state -/

/-- The `TypingEngine` instance state, together with the observable logs:
`renders` (payloads passed to `onUpdate`, in order), `completions`
(payloads passed to `onComplete`, in order) and `history` (the storage
list; `saveSession` unshifts, so newest first). -/
structure EngineState : Type where
  testText : List Char
  cursor : Nat
  errors : Nat
  errorMap : List (SKey × Nat)
  timestamps : List ℚ
  sessionStart : Option ℚ
  latencies : List ℚ
  latencyBuckets : List (ℤ × Nat)
  confusions : List ((SKey × Char) × Nat)
  history : List SessionRecord
  completions : List SessionRecord
  renders : List RenderState
deriving DecidableEq

/-- The state set up by the constructor via `resetSession()`, with empty logs. -/
def initEngine : EngineState :=
  { testText := [], cursor := 0, errors := 0, errorMap := [], timestamps := []
    sessionStart := none, latencies := [], latencyBuckets := [], confusions := []
    history := [], completions := [], renders := [] }

/-- `emitUpdate()` payload: status `correct` below the cursor, `current` at
it, `pending` beyond it. -/
def renderOf (s : EngineState) : RenderState :=
  { chars := s.testText.enum.map fun ic =>
      (ic.2, if ic.1 < s.cursor then CharStatus.correct
             else if ic.1 = s.cursor then CharStatus.current
             else CharStatus.pending)
    cursor := s.cursor
    total := s.testText.length }

/-- `emitUpdate()`: invoke the render callback (append to the render log). -/
def pushUpdate (s : EngineState) : EngineState :=
  { s with renders := s.renders ++ [renderOf s] }

/-- `loadText(text)`: store the split text, zero the cursor, the error
count, the error map and the correct-keystroke timestamps, record the
start instant and emit one render.  (The other fields — in particular
`latencies`, `latencyBuckets` and `confusions` — are left as they were.) -/
def loadText (s : EngineState) (text : List Char) (now : ℚ) : EngineState :=
  pushUpdate
    { s with testText := text, cursor := 0, errors := 0, errorMap := []
             timestamps := [], sessionStart := some now }

/-- `accuracy()`: `100` before any keystroke, else
`+Math.max(0, cursor/typed*100).toFixed(1)`. -/
def accuracy (s : EngineState) : ℚ :=
  let typed := s.cursor + s.errors
  if typed = 0 then 100
  else round1 (max 0 ((s.cursor : ℚ) / (typed : ℚ) * 100))

/-- `wpm()`: `0` without correct keystrokes; else
`Math.round((cursor/5) / (elapsedMs/60000) || 0)` where
`elapsedMs = timestamps.at(-1) - sessionStart`.  A `0/0` quotient is `NaN`,
falsy, guarded to `0` by `|| 0`; a `x/0` quotient with `x > 0` is
`Infinity`, which is truthy and survives `Math.round`. -/
def wpm (s : EngineState) : JsNum :=
  match s.timestamps.getLast? with
  | none => JsNum.fin 0
  | some last =>
    let minutes := (last - (s.sessionStart.getD 0)) / 60000
    let words := (s.cursor : ℚ) / 5
    if minutes = 0 then (if words = 0 then JsNum.fin 0 else JsNum.inf)
    else JsNum.fin (jsRound (words / minutes))

/-- `persistSession()`: build the session record, `storage.saveSession`
(unshift onto the history list) and invoke the completion callback. -/
def persistSession (s : EngineState) : EngineState :=
  let record : SessionRecord :=
    { length := s.testText.length, errors := s.errors, accuracy := accuracy s
      wpm := wpm s, errorMap := s.errorMap
      latency := latencySummaryOf s.latencies, confusions := s.confusions }
  { s with history := record :: s.history, completions := s.completions ++ [record] }

/-- The state mutation of `handleKey` before the callbacks: compare the key
with the expected character, advance/record on a match (with the latency
sample when `interval && interval < 5000`), else count the error in
`errors`, `errorMap` and `confusions`. -/
def applyKey (s : EngineState) (key : Char) (now : ℚ) : EngineState :=
  let expected : SKey := s.testText[s.cursor]?
  let lastCorrectTs : Option ℚ :=
    match s.timestamps.getLast? with
    | some t => some t
    | none => s.sessionStart
  let interval : ℚ :=
    match lastCorrectTs with
    | some t => if t = 0 then 0 else now - t
    | none => 0
  if expected = some key then
    { s with cursor := s.cursor + 1, timestamps := s.timestamps ++ [now]
             latencies :=
               if interval ≠ 0 ∧ interval < 5000
               then s.latencies ++ [interval] else s.latencies
             latencyBuckets :=
               if interval ≠ 0 ∧ interval < 5000
               then bump s.latencyBuckets (min 4000 (jsRound (interval / 50) * 50)) 1
               else s.latencyBuckets }
  else
    { s with errors := s.errors + 1
             errorMap := bump s.errorMap expected 1
             confusions := bump s.confusions (expected, key) 1 }

/-- `handleKey(key)`: early return on an empty text, apply the keystroke,
emit the render, and persist when the cursor has reached the text length. -/
def handleKey (s : EngineState) (key : Char) (now : ℚ) : EngineState :=
  if s.testText.length = 0 then s
  else
    let s1 := applyKey s key now
    let s2 := pushUpdate s1
    if s1.testText.length ≤ s1.cursor then persistSession s2 else s2

/-- Feed a list of `(key, instant)` keystrokes to the engine in order. -/
def run (s : EngineState) (ks : List (Char × ℚ)) : EngineState :=
  ks.foldl (fun s kt => handleKey s kt.1 kt.2) s

/-! ## Suggestion engine (`generateSuggestions`) -/

/-- A history session as consumed by `generateSuggestions` (only its
`errorMap` is read; counts are JS numbers). -/
structure SuggestSession : Type where
  errorMap : List (SKey × ℚ)
deriving DecidableEq

/-- Stable insertion, descending by score: a later element is placed before
the first element it strictly beats (`sort((a,b)=>b[1]-a[1])`, stable). -/
def insertDesc (a : SKey × ℚ) : List (SKey × ℚ) → List (SKey × ℚ)
  | [] => [a]
  | b :: l => if b.2 < a.2 then a :: b :: l else b :: insertDesc a l

/-- Stable sort, descending by score. -/
def sortDesc (l : List (SKey × ℚ)) : List (SKey × ℚ) :=
  l.foldl (fun acc a => insertDesc a acc) []

/-- `generateSuggestions({historySessions, currentErrorMap, max})`:
aggregate history error counts, add the current session's counts weighted
by `1.2`, deprioritize whitespace keys by `0.4`, sort descending by score
and truncate to `max`. -/
def generateSuggestions (historySessions : List SuggestSession)
    (currentErrorMap : List (SKey × ℚ)) (max : Nat) : List (SKey × ℚ) :=
  let aggregate := historySessions.foldl
    (fun m s => s.errorMap.foldl (fun m kv => bump m kv.1 kv.2) m) []
  let aggregate := currentErrorMap.foldl
    (fun m kv => bump m kv.1 (kv.2 * (6/5))) aggregate
  let scored := aggregate.map fun kv =>
    (kv.1, kv.2 * (if keyWhitespace kv.1 then (2/5 : ℚ) else 1))
  (sortDesc scored).take max

/-- The arguments of `generateSuggestions`, kept as an explicit value so that
the reads the function performs can be threaded through it. -/
structure SuggestInputs : Type where
  historySessions : List SuggestSession
  currentErrorMap : List (SKey × ℚ)
deriving DecidableEq

/-- `generateSuggestions` with its inputs threaded explicitly through the
body: the JS code only ever reads them (`[...historySessions]` copies,
`Object.entries` enumerates; every write targets the local `aggregate`
map), so the inputs come back out exactly as they went in. -/
def rankTracked (inp : SuggestInputs) (max : Nat) :
    List (SKey × ℚ) × SuggestInputs :=
  let hs := inp.historySessions
  let cur := inp.currentErrorMap
  let aggregate := hs.foldl
    (fun m s => s.errorMap.foldl (fun m kv => bump m kv.1 kv.2) m) []
  let aggregate := cur.foldl
    (fun m kv => bump m kv.1 (kv.2 * (6/5))) aggregate
  let scored := aggregate.map fun kv =>
    (kv.1, kv.2 * (if keyWhitespace kv.1 then (2/5 : ℚ) else 1))
  ((sortDesc scored).take max, inp)

/-! ## Spec-side definitions (for refinement-style comparisons) -/

/-- The accuracy formula as the spec words it: `100` on zero keystrokes,
else `max(0, cursor / (cursor+errors) * 100)` rounded to one decimal. -/
def accuracySpec (cursor errors : Nat) : ℚ :=
  if cursor + errors = 0 then 100
  else round1 (max 0 ((cursor : ℚ) / ((cursor : ℚ) + (errors : ℚ)) * 100))

/-- Total count recorded for key `k` across the entries of one error map. -/
def keySum (m : List (SKey × ℚ)) (k : SKey) : ℚ :=
  (m.map fun kv => if kv.1 = k then kv.2 else 0).sum

/-- The spec's aggregate score of one character: history counts, plus `1.2`
times the current-session count, times `0.4` for whitespace. -/
def specScore (hist : List SuggestSession) (cur : List (SKey × ℚ))
    (k : SKey) : ℚ :=
  ((hist.map fun s => keySum s.errorMap k).sum + (6/5) * keySum cur k) *
    (if keyWhitespace k then (2/5 : ℚ) else 1)

/-- The keys of an association-list counter, in order. -/
def mkeys {α β : Type} (m : List (α × β)) : List α :=
  m.map Prod.fst

/-- A suggestion list sorted descending by score. -/
def SortedDesc (l : List (SKey × ℚ)) : Prop :=
  l.Pairwise (fun a b => b.2 ≤ a.2)

/-- The aggregate map that `generateSuggestions` builds internally (history
counts first, then the current session counts weighted by 1.2), exposed so
the ranking can be analysed against it. -/
def aggMap (hist : List SuggestSession) (cur : List (SKey × ℚ)) :
    List (SKey × ℚ) :=
  cur.foldl (fun m kv => bump m kv.1 (kv.2 * (6/5)))
    (hist.foldl
      (fun m s => s.errorMap.foldl (fun m kv => bump m kv.1 kv.2) m) [])

/-- The scored entries `generateSuggestions` sorts: the aggregate with the
whitespace deprioritization factor applied. -/
def scoredOf (hist : List SuggestSession) (cur : List (SKey × ℚ)) :
    List (SKey × ℚ) :=
  (aggMap hist cur).map fun kv =>
    (kv.1, kv.2 * (if keyWhitespace kv.1 then (2/5 : ℚ) else 1))

/-- A character with a recorded entry somewhere: it appears as a key of
some history session's error map or of the current error map.  These are
exactly the characters the ranking aggregates. -/
def charged (hist : List SuggestSession) (cur : List (SKey × ℚ))
    (k : SKey) : Prop :=
  (∃ s ∈ hist, ∃ kv ∈ s.errorMap, kv.1 = k) ∨ ∃ kv ∈ cur, kv.1 = k

/-! ## Concrete traces used by the claim analyses -/

/-- Load `"a"` at instant 0. -/
def c1s0 : EngineState := loadText initEngine ['a'] 0

/-- ... complete it with the correct key at instant 100 ... -/
def c1s1 : EngineState := handleKey c1s0 'a' 100

/-- ... and press a further key at instant 200, after the session finished. -/
def c1s2 : EngineState := handleKey c1s1 'a' 200

/-- Load `"a"` at instant 10. -/
def c2s0 : EngineState := loadText initEngine ['a'] 10

/-- ... miss with `'x'` at instant 20 ... -/
def c2s1 : EngineState := handleKey c2s0 'x' 20

/-- ... complete with `'a'` at instant 100 ... -/
def c2s2 : EngineState := handleKey c2s1 'a' 100

/-- ... and load the fresh text `"b"` at instant 200. -/
def c2s3 : EngineState := loadText c2s2 ['b'] 200

/-- Load `"ab"` at instant 10. -/
def c3s0 : EngineState := loadText initEngine ['a', 'b'] 10

/-- ... and type the very first correct keystroke at instant 150. -/
def c3s1 : EngineState := handleKey c3s0 'a' 150

/-- The spec's worked scenario: load `"ab"`, type `'a'` (correct), `'x'`
(wrong, expected `'b'`), `'b'` (correct). -/
def c6s3 : EngineState :=
  handleKey (handleKey (handleKey (loadText initEngine ['a', 'b'] 10) 'a' 20) 'x' 30) 'b' 40

/-- One correct keystroke typed at the very instant the session started. -/
def c7s1 : EngineState := handleKey (loadText initEngine ['a', 'b'] 5) 'a' 5

/-! ## Lemmas about association-list counters -/

theorem getD_bump_self {α β : Type} [DecidableEq α] [AddMonoid β]
    (m : List (α × β)) (k : α) (v : β) :
    getD (bump m k v) k 0 = getD m k 0 + v := by
  induction m with
  | nil => simp [bump, getD]
  | cons kv m ih =>
    obtain ⟨a, b⟩ := kv
    by_cases h : a = k
    · simp [bump, getD, h]
    · simp [bump, getD, h, ih]

theorem getD_bump_ne {α β : Type} [DecidableEq α] [Add β]
    (m : List (α × β)) (k j : α) (v d : β) (h : j ≠ k) :
    getD (bump m k v) j d = getD m j d := by
  have hkj : k ≠ j := Ne.symm h
  induction m with
  | nil => simp [bump, getD, hkj]
  | cons kv m ih =>
    obtain ⟨a, b⟩ := kv
    by_cases ha : a = k
    · subst ha; simp [bump, getD, hkj]
    · by_cases hj : a = j
      · subst hj; simp [bump, getD, ha]
      · simp [bump, getD, ha, hj, ih]

theorem msum_bump {α β : Type} [DecidableEq α] [AddCommMonoid β]
    (m : List (α × β)) (k : α) (v : β) :
    msum (bump m k v) = msum m + v := by
  induction m with
  | nil => simp [bump, msum]
  | cons kv m ih =>
    obtain ⟨a, b⟩ := kv
    by_cases h : a = k
    · simp [bump, msum, h]; abel
    · simp [bump, msum, h] at ih ⊢; rw [ih]; abel

theorem mkeys_bump {α β : Type} [DecidableEq α] [Add β]
    (m : List (α × β)) (k : α) (v : β) :
    mkeys (bump m k v) =
      if k ∈ mkeys m then mkeys m else mkeys m ++ [k] := by
  induction m with
  | nil => simp [bump, mkeys]
  | cons kv m ih =>
    obtain ⟨a, b⟩ := kv
    by_cases h : a = k
    · subst h; simp [bump, mkeys]
    · have hka : k ≠ a := Ne.symm h
      simp only [mkeys] at ih
      by_cases hm : k ∈ List.map Prod.fst m
      · simp [bump, mkeys, h, hka, hm, ih]
      · simp [bump, mkeys, h, hka, hm, ih]

theorem nodup_mkeys_bump {α β : Type} [DecidableEq α] [Add β]
    (m : List (α × β)) (k : α) (v : β) (h : (mkeys m).Nodup) :
    (mkeys (bump m k v)).Nodup := by
  rw [mkeys_bump]
  by_cases hm : k ∈ mkeys m
  · simpa [hm] using h
  · simp [hm, List.nodup_append, h]

theorem getD_eq_of_mem {α β : Type} [DecidableEq α]
    (m : List (α × β)) (k : α) (v d : β)
    (hm : (k, v) ∈ m) (hn : (mkeys m).Nodup) : getD m k d = v := by
  induction m with
  | nil => simp at hm
  | cons kv m ih =>
    obtain ⟨a, b⟩ := kv
    rw [mkeys, List.map_cons, List.nodup_cons] at hn
    rcases List.mem_cons.mp hm with heq | htail
    · rw [Prod.mk.injEq] at heq
      obtain ⟨rfl, rfl⟩ := heq
      simp [getD]
    · have hak : a ≠ k := by
        intro heq
        apply hn.1
        rw [heq]
        exact List.mem_map.mpr ⟨(k, v), htail, rfl⟩
      simpa [getD, hak] using ih htail (by simpa [mkeys] using hn.2)

/-! ## Lemmas about the suggestion aggregation folds -/

theorem getD_foldl_bump (g : SKey × ℚ → ℚ) (l : List (SKey × ℚ))
    (m0 : List (SKey × ℚ)) (k : SKey) :
    getD (l.foldl (fun m kv => bump m kv.1 (g kv)) m0) k 0 =
      getD m0 k 0 + (l.map fun kv => if kv.1 = k then g kv else 0).sum := by
  induction l generalizing m0 with
  | nil => simp
  | cons kv l ih =>
    rw [List.foldl_cons, ih]
    by_cases h : kv.1 = k
    · rw [h, getD_bump_self]
      simp [h]
      ring
    · rw [getD_bump_ne _ _ _ _ _ (fun hh => h hh.symm)]
      simp [h]

theorem getD_hist_foldl (hist : List SuggestSession)
    (m0 : List (SKey × ℚ)) (k : SKey) :
    getD (hist.foldl
        (fun m s => s.errorMap.foldl (fun m kv => bump m kv.1 kv.2) m) m0) k 0 =
      getD m0 k 0 + (hist.map fun s => keySum s.errorMap k).sum := by
  induction hist generalizing m0 with
  | nil => simp
  | cons s hist ih =>
    rw [List.foldl_cons, ih, getD_foldl_bump (fun kv => kv.2)]
    simp only [keySum, List.map_cons, List.sum_cons]
    ring

theorem sum_if_mul (l : List (SKey × ℚ)) (k : SKey) (c : ℚ) :
    (l.map fun kv => if kv.1 = k then kv.2 * c else 0).sum = c * keySum l k := by
  induction l with
  | nil => simp [keySum]
  | cons kv l ih =>
    simp only [keySum, List.map_cons, List.sum_cons] at ih ⊢
    by_cases h : kv.1 = k
    · rw [if_pos h, if_pos h, ih]; ring
    · rw [if_neg h, if_neg h, ih]; ring

theorem nodup_foldl_bump (g : SKey × ℚ → ℚ) (l : List (SKey × ℚ))
    (m0 : List (SKey × ℚ)) (h : (mkeys m0).Nodup) :
    (mkeys (l.foldl (fun m kv => bump m kv.1 (g kv)) m0)).Nodup := by
  induction l generalizing m0 with
  | nil => exact h
  | cons kv l ih => exact ih _ (nodup_mkeys_bump _ _ _ h)

theorem nodup_hist_foldl (hist : List SuggestSession)
    (m0 : List (SKey × ℚ)) (h : (mkeys m0).Nodup) :
    (mkeys (hist.foldl
      (fun m s => s.errorMap.foldl (fun m kv => bump m kv.1 kv.2) m) m0)).Nodup := by
  induction hist generalizing m0 with
  | nil => exact h
  | cons s hist ih => exact ih _ (nodup_foldl_bump (fun kv => kv.2) _ _ h)

theorem hist_foldl_of_empty (hist : List SuggestSession)
    (m0 : List (SKey × ℚ)) (h : ∀ s ∈ hist, s.errorMap = []) :
    hist.foldl
      (fun m s => s.errorMap.foldl (fun m kv => bump m kv.1 kv.2) m) m0 = m0 := by
  induction hist generalizing m0 with
  | nil => rfl
  | cons s hist ih =>
    rw [List.foldl_cons, h s (List.mem_cons_self s hist), List.foldl_nil]
    exact ih _ fun t ht => h t (List.mem_cons_of_mem s ht)

/-! ## Lemmas about the stable descending sort -/

theorem mem_insertDesc (a x : SKey × ℚ) (l : List (SKey × ℚ)) :
    a ∈ insertDesc x l ↔ a = x ∨ a ∈ l := by
  induction l with
  | nil => simp [insertDesc]
  | cons b l ih =>
    rw [insertDesc]
    by_cases h : b.2 < x.2
    · simp [h]
    · rw [if_neg h]
      simp [ih]
      tauto

theorem sorted_insertDesc (x : SKey × ℚ) (l : List (SKey × ℚ))
    (h : SortedDesc l) : SortedDesc (insertDesc x l) := by
  induction l with
  | nil => simp [insertDesc, SortedDesc]
  | cons b l ih =>
    rw [SortedDesc, List.pairwise_cons] at h
    rw [insertDesc]
    by_cases hx : b.2 < x.2
    · rw [if_pos hx, SortedDesc, List.pairwise_cons]
      refine ⟨?_, ?_⟩
      · intro c hc
        rcases List.mem_cons.mp hc with rfl | hcl
        · exact le_of_lt hx
        · exact le_trans (h.1 c hcl) (le_of_lt hx)
      · rw [List.pairwise_cons]
        exact h
    · rw [if_neg hx, SortedDesc, List.pairwise_cons]
      refine ⟨?_, ih h.2⟩
      intro c hc
      rcases (mem_insertDesc c x l).mp hc with rfl | hcl
      · exact le_of_not_lt hx
      · exact h.1 c hcl

theorem mem_foldl_insertDesc (l : List (SKey × ℚ)) :
    ∀ (acc : List (SKey × ℚ)) (a : SKey × ℚ),
      a ∈ l.foldl (fun acc x => insertDesc x acc) acc ↔ a ∈ acc ∨ a ∈ l := by
  induction l with
  | nil => simp
  | cons x l ih =>
    intro acc a
    rw [List.foldl_cons, ih, mem_insertDesc]
    simp
    tauto

theorem mem_sortDesc (a : SKey × ℚ) (l : List (SKey × ℚ)) :
    a ∈ sortDesc l ↔ a ∈ l := by
  rw [sortDesc, mem_foldl_insertDesc]
  simp

theorem sorted_foldl_insertDesc (l : List (SKey × ℚ)) :
    ∀ acc : List (SKey × ℚ), SortedDesc acc →
      SortedDesc (l.foldl (fun acc x => insertDesc x acc) acc) := by
  induction l with
  | nil => exact fun acc h => h
  | cons x l ih => exact fun acc h => ih _ (sorted_insertDesc x acc h)

theorem sorted_sortDesc (l : List (SKey × ℚ)) : SortedDesc (sortDesc l) :=
  sorted_foldl_insertDesc l [] (List.Pairwise.nil)

theorem perm_insertDesc (x : SKey × ℚ) (l : List (SKey × ℚ)) :
    (insertDesc x l).Perm (x :: l) := by
  induction l with
  | nil => exact List.Perm.refl _
  | cons b l ih =>
    rw [insertDesc]
    by_cases h : b.2 < x.2
    · rw [if_pos h]
    · rw [if_neg h]
      exact List.Perm.trans (List.Perm.cons b ih) (List.Perm.swap x b l)

theorem perm_foldl_insertDesc (l : List (SKey × ℚ)) :
    ∀ acc : List (SKey × ℚ),
      (l.foldl (fun acc x => insertDesc x acc) acc).Perm (acc ++ l) := by
  induction l with
  | nil => intro acc; simp
  | cons x l ih =>
    intro acc
    rw [List.foldl_cons]
    exact (ih _).trans
      (((perm_insertDesc x acc).append_right l).trans List.perm_middle.symm)

theorem perm_sortDesc (l : List (SKey × ℚ)) : (sortDesc l).Perm l := by
  simpa using perm_foldl_insertDesc l []

/-! ## Lemmas about the keys occurring in the aggregation -/

theorem mem_mkeys_bump {α β : Type} [DecidableEq α] [Add β]
    (m : List (α × β)) (k0 k : α) (v : β) :
    k ∈ mkeys (bump m k0 v) ↔ k ∈ mkeys m ∨ k = k0 := by
  rw [mkeys_bump]
  by_cases hm : k0 ∈ mkeys m
  · rw [if_pos hm]
    constructor
    · exact Or.inl
    · rintro (h | rfl)
      · exact h
      · exact hm
  · rw [if_neg hm]
    simp [List.mem_append]

theorem mem_mkeys_foldl_bump (g : SKey × ℚ → ℚ) (l : List (SKey × ℚ))
    (m0 : List (SKey × ℚ)) (k : SKey) :
    k ∈ mkeys (l.foldl (fun m kv => bump m kv.1 (g kv)) m0) ↔
      k ∈ mkeys m0 ∨ ∃ kv ∈ l, kv.1 = k := by
  induction l generalizing m0 with
  | nil => simp
  | cons kv l ih =>
    rw [List.foldl_cons, ih, mem_mkeys_bump]
    constructor
    · rintro ((h | rfl) | ⟨x, hx, rfl⟩)
      · exact Or.inl h
      · exact Or.inr ⟨kv, List.mem_cons_self kv l, rfl⟩
      · exact Or.inr ⟨x, List.mem_cons_of_mem kv hx, rfl⟩
    · rintro (h | ⟨x, hx, rfl⟩)
      · exact Or.inl (Or.inl h)
      · rcases List.mem_cons.mp hx with rfl | hxl
        · exact Or.inl (Or.inr rfl)
        · exact Or.inr ⟨x, hxl, rfl⟩

theorem mem_mkeys_hist_foldl (hist : List SuggestSession)
    (m0 : List (SKey × ℚ)) (k : SKey) :
    k ∈ mkeys (hist.foldl
        (fun m s => s.errorMap.foldl (fun m kv => bump m kv.1 kv.2) m) m0) ↔
      k ∈ mkeys m0 ∨ ∃ s ∈ hist, ∃ kv ∈ s.errorMap, kv.1 = k := by
  induction hist generalizing m0 with
  | nil => simp
  | cons s hist ih =>
    rw [List.foldl_cons, ih, mem_mkeys_foldl_bump (fun kv => kv.2)]
    constructor
    · rintro ((h | ⟨x, hx, rfl⟩) | ⟨t, ht, hkv⟩)
      · exact Or.inl h
      · exact Or.inr ⟨s, List.mem_cons_self s hist, x, hx, rfl⟩
      · exact Or.inr ⟨t, List.mem_cons_of_mem s ht, hkv⟩
    · rintro (h | ⟨t, ht, x, hx, rfl⟩)
      · exact Or.inl (Or.inl h)
      · rcases List.mem_cons.mp ht with rfl | htl
        · exact Or.inl (Or.inr ⟨x, hx, rfl⟩)
        · exact Or.inr ⟨t, htl, x, hx, rfl⟩

theorem charged_iff_mem_agg (hist : List SuggestSession)
    (cur : List (SKey × ℚ)) (k : SKey) :
    charged hist cur k ↔ k ∈ mkeys (aggMap hist cur) := by
  rw [charged, aggMap,
    mem_mkeys_foldl_bump (fun kv => kv.2 * (6/5)), mem_mkeys_hist_foldl]
  simp [mkeys]

/-! ## Helper theorems about `generateSuggestions` -/

theorem generateSuggestions_eq (hist : List SuggestSession)
    (cur : List (SKey × ℚ)) (max : Nat) :
    generateSuggestions hist cur max =
      (sortDesc (scoredOf hist cur)).take max := rfl

theorem nodup_mkeys_aggMap (hist : List SuggestSession)
    (cur : List (SKey × ℚ)) : (mkeys (aggMap hist cur)).Nodup := by
  rw [aggMap]
  apply nodup_foldl_bump (fun kv => kv.2 * (6/5))
  apply nodup_hist_foldl
  simp [mkeys]

theorem mkeys_scoredOf (hist : List SuggestSession)
    (cur : List (SKey × ℚ)) :
    mkeys (scoredOf hist cur) = mkeys (aggMap hist cur) := by
  simp [scoredOf, mkeys, List.map_map, Function.comp]

theorem aggMap_entry_val (hist : List SuggestSession)
    (cur : List (SKey × ℚ)) (kv : SKey × ℚ) (hkv : kv ∈ aggMap hist cur) :
    kv.2 = (hist.map fun s => keySum s.errorMap kv.1).sum +
      (6/5) * keySum cur kv.1 := by
  rw [aggMap] at hkv
  have hnodup := nodup_mkeys_aggMap hist cur
  rw [aggMap] at hnodup
  have hv : getD (cur.foldl (fun m kv => bump m kv.1 (kv.2 * (6/5)))
      (hist.foldl
        (fun m s => s.errorMap.foldl (fun m kv => bump m kv.1 kv.2) m) []))
      kv.1 0 = kv.2 :=
    getD_eq_of_mem _ kv.1 kv.2 0 hkv hnodup
  have hfold : getD (cur.foldl (fun m kv => bump m kv.1 (kv.2 * (6/5)))
      (hist.foldl
        (fun m s => s.errorMap.foldl (fun m kv => bump m kv.1 kv.2) m) []))
      kv.1 0 =
      getD (hist.foldl
        (fun m s => s.errorMap.foldl (fun m kv => bump m kv.1 kv.2) m) []) kv.1 0 +
        (cur.map fun kv' => if kv'.1 = kv.1 then kv'.2 * (6/5) else 0).sum :=
    getD_foldl_bump (fun kv' => kv'.2 * (6/5)) cur _ kv.1
  have hhist : getD (hist.foldl
      (fun m s => s.errorMap.foldl (fun m kv => bump m kv.1 kv.2) m) []) kv.1 0 =
      getD ([] : List (SKey × ℚ)) kv.1 0 +
        (hist.map fun s => keySum s.errorMap kv.1).sum :=
    getD_hist_foldl hist [] kv.1
  rw [← hv, hfold, hhist, sum_if_mul]
  simp [getD]

theorem scored_entry_score (hist : List SuggestSession)
    (cur : List (SKey × ℚ)) (e : SKey × ℚ) (he : e ∈ scoredOf hist cur) :
    e.2 = specScore hist cur e.1 := by
  rw [scoredOf] at he
  obtain ⟨kv, hkv, rfl⟩ := List.mem_map.mp he
  have hval := aggMap_entry_val hist cur kv hkv
  simp only [specScore]
  rw [hval]

theorem suggestions_entry_score (hist : List SuggestSession)
    (cur : List (SKey × ℚ)) (max : Nat) (e : SKey × ℚ)
    (he : e ∈ generateSuggestions hist cur max) :
    e.2 = specScore hist cur e.1 := by
  rw [generateSuggestions_eq] at he
  exact scored_entry_score hist cur e
    ((mem_sortDesc e _).mp ((List.take_sublist max _).subset he))

theorem suggestions_keys_nodup (hist : List SuggestSession)
    (cur : List (SKey × ℚ)) (max : Nat) :
    (mkeys (generateSuggestions hist cur max)).Nodup := by
  rw [generateSuggestions_eq]
  have hperm : (mkeys (sortDesc (scoredOf hist cur))).Perm
      (mkeys (scoredOf hist cur)) := (perm_sortDesc _).map Prod.fst
  have h1 : (mkeys (sortDesc (scoredOf hist cur))).Nodup :=
    (hperm.nodup_iff).mpr (mkeys_scoredOf hist cur ▸ nodup_mkeys_aggMap hist cur)
  have h2 : mkeys ((sortDesc (scoredOf hist cur)).take max) =
      (mkeys (sortDesc (scoredOf hist cur))).take max := by
    simp [mkeys, List.map_take]
  rw [h2]
  exact List.Nodup.sublist (List.take_sublist _ _) h1

theorem suggestions_entry_charged (hist : List SuggestSession)
    (cur : List (SKey × ℚ)) (max : Nat) (e : SKey × ℚ)
    (he : e ∈ generateSuggestions hist cur max) :
    charged hist cur e.1 := by
  rw [generateSuggestions_eq] at he
  have h2 : e ∈ scoredOf hist cur :=
    (mem_sortDesc e _).mp ((List.take_sublist max _).subset he)
  rw [charged_iff_mem_agg, ← mkeys_scoredOf]
  exact List.mem_map_of_mem Prod.fst h2

theorem suggestions_missing_key (hist : List SuggestSession)
    (cur : List (SKey × ℚ)) (max : Nat) (k : SKey)
    (hch : charged hist cur k)
    (hout : k ∉ mkeys (generateSuggestions hist cur max)) :
    (generateSuggestions hist cur max).length = max ∧
    ∀ e ∈ generateSuggestions hist cur max, specScore hist cur k ≤ e.2 := by
  have hk : k ∈ mkeys (scoredOf hist cur) := by
    rw [mkeys_scoredOf]
    exact (charged_iff_mem_agg hist cur k).mp hch
  rw [mkeys] at hk
  obtain ⟨e0, he0, rfl⟩ := List.mem_map.mp hk
  have he0s : e0 ∈ sortDesc (scoredOf hist cur) := (mem_sortDesc e0 _).mpr he0
  have hnotin : e0 ∉ (sortDesc (scoredOf hist cur)).take max := by
    intro hmem
    apply hout
    rw [generateSuggestions_eq]
    exact List.mem_map_of_mem Prod.fst hmem
  have hdrop : e0 ∈ (sortDesc (scoredOf hist cur)).drop max := by
    have hsplit := List.take_append_drop max (sortDesc (scoredOf hist cur))
    rw [← hsplit] at he0s
    rcases List.mem_append.mp he0s with h | h
    · exact absurd h hnotin
    · exact h
  have hlen : max < (sortDesc (scoredOf hist cur)).length := by
    by_contra hle
    rw [List.drop_eq_nil_of_le (Nat.le_of_not_lt hle)] at hdrop
    exact absurd hdrop (List.not_mem_nil e0)
  constructor
  · rw [generateSuggestions_eq, List.length_take]
    exact Nat.min_eq_left hlen.le
  · intro e he
    have hsorted : SortedDesc (sortDesc (scoredOf hist cur)) := sorted_sortDesc _
    rw [SortedDesc, ← List.take_append_drop max (sortDesc (scoredOf hist cur)),
      List.pairwise_append] at hsorted
    rw [(scored_entry_score hist cur e0 he0).symm]
    rw [generateSuggestions_eq] at he
    exact hsorted.2.2 e he e0 hdrop

theorem suggestions_sorted (hist : List SuggestSession)
    (cur : List (SKey × ℚ)) (max : Nat) :
    SortedDesc (generateSuggestions hist cur max) := by
  simp only [generateSuggestions]
  exact (sorted_sortDesc _).sublist (List.take_sublist _ _)

theorem suggestions_length (hist : List SuggestSession)
    (cur : List (SKey × ℚ)) (max : Nat) :
    (generateSuggestions hist cur max).length ≤ max := by
  simp only [generateSuggestions]
  exact List.length_take_le _ _

theorem suggestions_of_no_errors (hist : List SuggestSession)
    (cur : List (SKey × ℚ)) (max : Nat)
    (hh : ∀ s ∈ hist, s.errorMap = []) (hc : cur = []) :
    generateSuggestions hist cur max = [] := by
  subst hc
  simp only [generateSuggestions, List.foldl_nil]
  rw [hist_foldl_of_empty hist [] hh]
  simp [sortDesc]

/-! ## Structural lemmas about the engine operations -/

theorem handleKey_of_empty (s : EngineState) (key : Char) (now : ℚ)
    (h : s.testText.length = 0) : handleKey s key now = s := by
  simp [handleKey, h]

theorem handleKey_of_nonempty (s : EngineState) (key : Char) (now : ℚ)
    (h : s.testText.length ≠ 0) :
    handleKey s key now =
      if (applyKey s key now).testText.length ≤ (applyKey s key now).cursor
      then persistSession (pushUpdate (applyKey s key now))
      else pushUpdate (applyKey s key now) := by
  simp only [handleKey]
  rw [if_neg h]

theorem applyKey_of_miss (s : EngineState) (key : Char) (now : ℚ)
    (h : s.testText[s.cursor]? ≠ some key) :
    applyKey s key now =
      { s with errors := s.errors + 1
               errorMap := bump s.errorMap (s.testText[s.cursor]?) 1
               confusions := bump s.confusions ((s.testText[s.cursor]?), key) 1 } := by
  simp only [applyKey]
  rw [if_neg h]

theorem applyKey_of_hit (s : EngineState) (key : Char) (now : ℚ)
    (h : s.testText[s.cursor]? = some key) :
    (applyKey s key now).cursor = s.cursor + 1 ∧
    (applyKey s key now).errors = s.errors ∧
    (applyKey s key now).errorMap = s.errorMap ∧
    (applyKey s key now).confusions = s.confusions ∧
    (applyKey s key now).timestamps = s.timestamps ++ [now] := by
  simp only [applyKey]
  rw [if_pos h]
  simp

theorem applyKey_testText (s : EngineState) (key : Char) (now : ℚ) :
    (applyKey s key now).testText = s.testText := by
  simp only [applyKey]
  split <;> rfl

theorem applyKey_sessionStart (s : EngineState) (key : Char) (now : ℚ) :
    (applyKey s key now).sessionStart = s.sessionStart := by
  simp only [applyKey]
  split <;> rfl

theorem applyKey_history (s : EngineState) (key : Char) (now : ℚ) :
    (applyKey s key now).history = s.history := by
  simp only [applyKey]
  split <;> rfl

theorem applyKey_completions (s : EngineState) (key : Char) (now : ℚ) :
    (applyKey s key now).completions = s.completions := by
  simp only [applyKey]
  split <;> rfl

theorem handleKey_testText (s : EngineState) (key : Char) (now : ℚ) :
    (handleKey s key now).testText = s.testText := by
  by_cases h : s.testText.length = 0
  · rw [handleKey_of_empty _ _ _ h]
  · rw [handleKey_of_nonempty _ _ _ h]
    split <;> simp [persistSession, pushUpdate, applyKey_testText]

theorem handleKey_sessionStart (s : EngineState) (key : Char) (now : ℚ) :
    (handleKey s key now).sessionStart = s.sessionStart := by
  by_cases h : s.testText.length = 0
  · rw [handleKey_of_empty _ _ _ h]
  · rw [handleKey_of_nonempty _ _ _ h]
    split <;> simp [persistSession, pushUpdate, applyKey_sessionStart]

theorem handleKey_delta (s : EngineState) (key : Char) (now : ℚ)
    (h : s.testText.length ≠ 0) :
    (handleKey s key now).cursor + (handleKey s key now).errors =
      s.cursor + s.errors + 1 ∧
    msum (handleKey s key now).errorMap + s.errors =
      msum s.errorMap + (handleKey s key now).errors := by
  rw [handleKey_of_nonempty _ _ _ h]
  by_cases hc : s.testText[s.cursor]? = some key
  · obtain ⟨h1, h2, h3, _⟩ := applyKey_of_hit s key now hc
    split <;> simp [persistSession, pushUpdate, h1, h2, h3] <;> omega
  · rw [applyKey_of_miss s key now hc]
    split <;> simp [persistSession, pushUpdate, msum_bump] <;> omega

theorem handleKey_miss_sums (s : EngineState) (key : Char) (now : ℚ)
    (h : s.testText.length ≠ 0) (hc : s.testText[s.cursor]? ≠ some key) :
    msum (handleKey s key now).errorMap = msum s.errorMap + 1 ∧
    msum (handleKey s key now).confusions = msum s.confusions + 1 := by
  rw [handleKey_of_nonempty _ _ _ h, applyKey_of_miss s key now hc]
  split <;> simp [persistSession, pushUpdate, msum_bump]

theorem handleKey_cursor_ts (s : EngineState) (key : Char) (now : ℚ)
    (h : s.cursor = s.timestamps.length) :
    (handleKey s key now).cursor = (handleKey s key now).timestamps.length := by
  by_cases he : s.testText.length = 0
  · rw [handleKey_of_empty _ _ _ he]; exact h
  · rw [handleKey_of_nonempty _ _ _ he]
    by_cases hc : s.testText[s.cursor]? = some key
    · obtain ⟨h1, _, _, _, h5⟩ := applyKey_of_hit s key now hc
      split <;> simp [persistSession, pushUpdate, h1, h5, h]
    · rw [applyKey_of_miss s key now hc]
      split <;> simp [persistSession, pushUpdate, h]

theorem handleKey_history_only_finished (s : EngineState) (key : Char) (now : ℚ)
    (h : (handleKey s key now).history ≠ s.history) :
    (handleKey s key now).testText.length ≤ (handleKey s key now).cursor := by
  by_cases he : s.testText.length = 0
  · rw [handleKey_of_empty _ _ _ he] at h
    exact absurd rfl h
  · rw [handleKey_of_nonempty _ _ _ he] at h ⊢
    by_cases hf : (applyKey s key now).testText.length ≤ (applyKey s key now).cursor
    · rw [if_pos hf] at *
      simpa [persistSession, pushUpdate] using hf
    · rw [if_neg hf] at h
      rw [pushUpdate] at h
      simp [applyKey_history] at h

theorem run_cons (s : EngineState) (kt : Char × ℚ) (ks : List (Char × ℚ)) :
    run s (kt :: ks) = run (handleKey s kt.1 kt.2) ks := rfl

theorem run_testText (ks : List (Char × ℚ)) :
    ∀ s : EngineState, (run s ks).testText = s.testText := by
  induction ks with
  | nil => intro s; rfl
  | cons kt ks ih =>
    intro s
    rw [run_cons, ih, handleKey_testText]

theorem run_delta (ks : List (Char × ℚ)) :
    ∀ s : EngineState, s.testText ≠ [] →
      (run s ks).cursor + (run s ks).errors = s.cursor + s.errors + ks.length ∧
      msum (run s ks).errorMap + s.errors =
        msum s.errorMap + (run s ks).errors := by
  induction ks with
  | nil => intro s _; simp [run]
  | cons kt ks ih =>
    intro s hs
    have hs0 : s.testText.length ≠ 0 := by
      simpa [List.length_eq_zero] using hs
    have hstep := handleKey_delta s kt.1 kt.2 hs0
    have hne : (handleKey s kt.1 kt.2).testText ≠ [] := by
      rw [handleKey_testText]; exact hs
    have hrec := ih (handleKey s kt.1 kt.2) hne
    rw [run_cons]
    have hlen : (kt :: ks).length = ks.length + 1 := List.length_cons kt ks
    exact ⟨by omega, by omega⟩

theorem run_cursor_ts (ks : List (Char × ℚ)) :
    ∀ s : EngineState, s.cursor = s.timestamps.length →
      (run s ks).cursor = (run s ks).timestamps.length ∧
      (run s ks).sessionStart = s.sessionStart := by
  induction ks with
  | nil => intro s h; exact ⟨h, rfl⟩
  | cons kt ks ih =>
    intro s h
    rw [run_cons]
    obtain ⟨h1, h2⟩ := ih (handleKey s kt.1 kt.2) (handleKey_cursor_ts s kt.1 kt.2 h)
    exact ⟨h1, by rw [h2, handleKey_sessionStart]⟩

/-! ## Claim analyses -/

/-- C1: the spec demands that `handleKeystroke` be a no-op once the text is
finished and that finalization be idempotent; the code violates this.
After completing the one-character text `"a"` (one history record, one
completion), a further keystroke at instant 200 increments the error count,
records an error under the `undefined` expected key, and repeats
finalization: a second record enters the history and the completion
callback fires a second time. -/
theorem c1_finished_keystroke_not_noop :
    c1s1.history.length = 1 ∧ c1s1.completions.length = 1 ∧
    c1s1.errors = 0 ∧ c1s1.cursor = 1 ∧
    c1s2.errors = 1 ∧ c1s2.errorMap = [(none, 1)] ∧
    c1s2.history.length = 2 ∧ c1s2.completions.length = 2 := by decide

/-- C2: the spec says `load(text)` resets all session counters including
the confusion map and the latency samples; the code's `loadText` resets
only cursor, errors, errorMap and timestamps.  After a session on `"a"`
with one confusion and one latency sample, loading `"b"` keeps the stale
`confusions`, `latencies` and `latencyBuckets`. -/
theorem c2_load_keeps_stale_state :
    c2s1.confusions = [((some 'a', 'x'), 1)] ∧
    c2s2.latencies = [90] ∧
    c2s3.cursor = 0 ∧ c2s3.errors = 0 ∧ c2s3.errorMap = [] ∧
    c2s3.timestamps = [] ∧
    c2s3.confusions = [((some 'a', 'x'), 1)] ∧
    c2s3.latencies = [90] ∧ c2s3.latencyBuckets = [(100, 1)] := by
  norm_num +decide [c2s3, c2s2, c2s1, c2s0, handleKey, applyKey, loadText,
    pushUpdate, persistSession, initEngine, bump, jsRound]

/-- C3: the spec says a latency sample is appended only between two correct
keystrokes, so that samples ≤ correct keystrokes − 1; the code falls back
to the session start (`timestamps.at(-1) ?? sessionStart`), so the very
first correct keystroke records `now − sessionStart` as a sample: after
loading `"ab"` at 10 and typing the first correct key at 150, one sample
(140) exists against one correct keystroke. -/
theorem c3_first_correct_keystroke_sample :
    c3s1.cursor = 1 ∧ c3s1.timestamps.length = 1 ∧ c3s1.latencies = [140] ∧
    ¬ c3s1.latencies.length ≤ c3s1.timestamps.length - 1 := by
  norm_num +decide [c3s1, c3s0, handleKey, applyKey, loadText, pushUpdate,
    initEngine]

/-- C4: for every keystroke trace fed after `loadText` on a non-empty text,
cursor + errors equals the number of keystrokes processed and the error-map
counts sum to the error count; moreover every miskey increments the
error-map total and the confusion-map total by exactly one. -/
theorem c4_keystroke_accounting :
    (∀ (s0 : EngineState) (text : List Char) (t0 : ℚ) (ks : List (Char × ℚ)),
      text ≠ [] →
      (run (loadText s0 text t0) ks).cursor +
          (run (loadText s0 text t0) ks).errors = ks.length ∧
      msum (run (loadText s0 text t0) ks).errorMap =
        (run (loadText s0 text t0) ks).errors) ∧
    (∀ (s : EngineState) (key : Char) (now : ℚ),
      s.testText.length ≠ 0 → s.testText[s.cursor]? ≠ some key →
      msum (handleKey s key now).errorMap = msum s.errorMap + 1 ∧
      msum (handleKey s key now).confusions = msum s.confusions + 1) := by
  constructor
  · intro s0 text t0 ks hne
    have hload : (loadText s0 text t0).testText = text := rfl
    have h := run_delta ks (loadText s0 text t0) (by rw [hload]; exact hne)
    have hc : (loadText s0 text t0).cursor = 0 := rfl
    have he : (loadText s0 text t0).errors = 0 := rfl
    have hm : msum (loadText s0 text t0).errorMap = 0 := rfl
    exact ⟨by omega, by omega⟩
  · intro s key now h hc
    exact handleKey_miss_sums s key now h hc

/-- C4 witness: the accounting holds on the concrete trace of one wrong
keystroke on the text `"a"`, and a wrong keystroke on a freshly loaded
`"a"` bumps both map totals by one. -/
theorem c4_keystroke_accounting_witness :
    ((run (loadText initEngine ['a'] 0) [('x', 5)]).cursor +
        (run (loadText initEngine ['a'] 0) [('x', 5)]).errors = 1 ∧
      msum (run (loadText initEngine ['a'] 0) [('x', 5)]).errorMap =
        (run (loadText initEngine ['a'] 0) [('x', 5)]).errors) ∧
    (msum (handleKey (loadText initEngine ['a'] 0) 'b' 5).errorMap =
        msum (loadText initEngine ['a'] 0).errorMap + 1 ∧
      msum (handleKey (loadText initEngine ['a'] 0) 'b' 5).confusions =
        msum (loadText initEngine ['a'] 0).confusions + 1) :=
  ⟨c4_keystroke_accounting.1 initEngine ['a'] 0 [('x', 5)] (by decide),
   c4_keystroke_accounting.2 (loadText initEngine ['a'] 0) 'b' 5
     (by decide) (by decide)⟩

/-- C5: on an unfinished loaded session, a keystroke different from the
expected character leaves the cursor unchanged, adds one to the error
count, and bumps exactly the `errorMap[expected]` entry and exactly the
`confusionMap[expected, key]` entry by one, leaving all other entries of
both maps unchanged. -/
theorem c5_wrong_keystroke (s : EngineState) (key exp : Char) (now : ℚ)
    (hcur : s.testText[s.cursor]? = some exp) (hne : key ≠ exp) :
    (handleKey s key now).cursor = s.cursor ∧
    (handleKey s key now).errors = s.errors + 1 ∧
    getD (handleKey s key now).errorMap (some exp) 0 =
      getD s.errorMap (some exp) 0 + 1 ∧
    (∀ j : SKey, j ≠ some exp →
      getD (handleKey s key now).errorMap j 0 = getD s.errorMap j 0) ∧
    getD (handleKey s key now).confusions (some exp, key) 0 =
      getD s.confusions (some exp, key) 0 + 1 ∧
    (∀ p : SKey × Char, p ≠ (some exp, key) →
      getD (handleKey s key now).confusions p 0 = getD s.confusions p 0) := by
  have hlt : s.cursor < s.testText.length := by
    by_contra hge
    rw [List.getElem?_eq_none (Nat.le_of_not_lt hge)] at hcur
    exact Option.noConfusion hcur
  have hlen : s.testText.length ≠ 0 := by omega
  have hmiss : s.testText[s.cursor]? ≠ some key := by
    rw [hcur]
    intro hh
    exact hne (Option.some.inj hh).symm
  rw [handleKey_of_nonempty _ _ _ hlen, applyKey_of_miss _ _ _ hmiss]
  rw [if_neg (by simpa using Nat.not_le.mpr hlt)]
  simp only [pushUpdate, hcur]
  refine ⟨trivial, trivial, getD_bump_self _ _ _, ?_, getD_bump_self _ _ _, ?_⟩
  · intro j hj
    exact getD_bump_ne _ _ _ _ _ hj
  · intro p hp
    exact getD_bump_ne _ _ _ _ _ hp

/-- C5 witness: the wrong keystroke `'x'` against expected `'a'` on a
freshly loaded `"ab"` produces exactly the claimed increments. -/
theorem c5_wrong_keystroke_witness :
    (handleKey (loadText initEngine ['a', 'b'] 0) 'x' 5).cursor =
      (loadText initEngine ['a', 'b'] 0).cursor ∧
    (handleKey (loadText initEngine ['a', 'b'] 0) 'x' 5).errors =
      (loadText initEngine ['a', 'b'] 0).errors + 1 ∧
    getD (handleKey (loadText initEngine ['a', 'b'] 0) 'x' 5).errorMap
        (some 'a') 0 =
      getD (loadText initEngine ['a', 'b'] 0).errorMap (some 'a') 0 + 1 ∧
    (∀ j : SKey, j ≠ some 'a' →
      getD (handleKey (loadText initEngine ['a', 'b'] 0) 'x' 5).errorMap j 0 =
        getD (loadText initEngine ['a', 'b'] 0).errorMap j 0) ∧
    getD (handleKey (loadText initEngine ['a', 'b'] 0) 'x' 5).confusions
        (some 'a', 'x') 0 =
      getD (loadText initEngine ['a', 'b'] 0).confusions (some 'a', 'x') 0 + 1 ∧
    (∀ p : SKey × Char, p ≠ (some 'a', 'x') →
      getD (handleKey (loadText initEngine ['a', 'b'] 0) 'x' 5).confusions p 0 =
        getD (loadText initEngine ['a', 'b'] 0).confusions p 0) :=
  c5_wrong_keystroke (loadText initEngine ['a', 'b'] 0) 'x' 'a' 5
    (by decide) (by decide)

/-- C6: the reported accuracy is 100 when no keystroke was typed and
otherwise `max(0, cursor/(cursor+errors)*100)` to one decimal, exactly the
spec formula; and the spec's worked scenario on `"ab"` (correct `'a'`,
wrong `'x'`, correct `'b'`) ends with cursor 2, one error, error map
`{'b': 1}`, confusion map `{'b'→'x': 1}`, accuracy 66.7, and one
completion. -/
theorem c6_accuracy_formula :
    (∀ s : EngineState, accuracy s = accuracySpec s.cursor s.errors) ∧
    (c6s3.cursor = 2 ∧ c6s3.errors = 1 ∧
     c6s3.errorMap = [(some 'b', 1)] ∧
     c6s3.confusions = [((some 'b', 'x'), 1)] ∧
     accuracy c6s3 = 667 / 10 ∧ c6s3.completions.length = 1) := by
  refine ⟨?_, ?_, ?_, ?_, ?_, ?_, ?_⟩
  · intro s
    simp [accuracy, accuracySpec, Nat.cast_add]
  · decide
  · decide
  · decide
  · decide
  · have h1 : c6s3.cursor = 2 := by decide
    have h2 : c6s3.errors = 1 := by decide
    rw [accuracy, h1, h2]
    norm_num [round1, jsRound]
  · decide

/-- C7 counterexample: one correct keystroke typed at the very instant the
session started gives a zero elapsed time; the claim says the division is
guarded to a WPM of 0, but the code returns Infinity. -/
theorem c7_zero_elapsed_infinity :
    c7s1.timestamps ≠ [] ∧ wpm c7s1 = JsNum.inf := by
  constructor
  · decide
  · have h1 : c7s1.timestamps.getLast? = some 5 := by decide
    have h2 : c7s1.sessionStart = some 5 := by decide
    have h3 : c7s1.cursor = 1 := by decide
    rw [wpm, h1]
    norm_num [h2, h3]

/-- C7 (amended): the WPM is 0 with no correct keystrokes; otherwise, when
the elapsed time from start to the last correct keystroke is nonzero, it is
`round((cursor/5)/(elapsedMs/60000))`; a NaN quotient (no cursor progress)
is guarded to 0, but a zero elapsed time with correct keystrokes yields
Infinity rather than the claimed 0.  In every state reached by a run from
`loadText` the timestamp count equals the cursor (so "no correct
keystrokes" and "no timestamps" coincide) and the session start is the load
instant. -/
theorem c7_wpm_formula :
    (∀ s : EngineState, s.timestamps = [] → wpm s = JsNum.fin 0) ∧
    (∀ (s : EngineState) (t0 last : ℚ), s.sessionStart = some t0 →
      s.timestamps.getLast? = some last →
      ((last ≠ t0 → wpm s =
          JsNum.fin (jsRound (((s.cursor : ℚ) / 5) / ((last - t0) / 60000)))) ∧
       (last = t0 → s.cursor ≠ 0 → wpm s = JsNum.inf) ∧
       (last = t0 → s.cursor = 0 → wpm s = JsNum.fin 0))) ∧
    (∀ (s0 : EngineState) (text : List Char) (t0 : ℚ) (ks : List (Char × ℚ)),
      (run (loadText s0 text t0) ks).timestamps.length =
        (run (loadText s0 text t0) ks).cursor ∧
      (run (loadText s0 text t0) ks).sessionStart = some t0) := by
  refine ⟨?_, ?_, ?_⟩
  · intro s h
    simp [wpm, h]
  · intro s t0 last hstart hlast
    have hmin : ((last - t0) / 60000 : ℚ) = 0 ↔ last = t0 := by
      rw [div_eq_zero_iff]
      constructor
      · rintro (h | h)
        · exact sub_eq_zero.mp h
        · exact absurd h (by norm_num)
      · intro h
        rw [h, sub_self]
        norm_num
    refine ⟨?_, ?_, ?_⟩
    · intro hne
      rw [wpm, hlast]
      simp only [hstart, Option.getD_some]
      rw [if_neg (fun hh => hne (hmin.mp hh))]
    · intro heq hcz
      rw [wpm, hlast]
      simp only [hstart, Option.getD_some]
      rw [if_pos (hmin.mpr heq),
        if_neg (div_ne_zero (Nat.cast_ne_zero.mpr hcz) (by norm_num))]
    · intro heq hcz
      rw [wpm, hlast]
      simp only [hstart, Option.getD_some]
      rw [if_pos (hmin.mpr heq), if_pos (by rw [hcz]; norm_num)]
  · intro s0 text t0 ks
    obtain ⟨h1, h2⟩ := run_cursor_ts ks (loadText s0 text t0) rfl
    exact ⟨h1.symm, h2.trans rfl⟩

/-- C7 witness: the formula applies at the state after `"a"` was typed at
instant 100 on a session started at 0 (elapsed 100 ms, one correct key),
and the Infinity case applies at the zero-elapsed state. -/
theorem c7_wpm_formula_witness :
    wpm c1s1 =
      JsNum.fin (jsRound (((c1s1.cursor : ℚ) / 5) /
        (((100 : ℚ) - 0) / 60000))) ∧
    wpm c7s1 = JsNum.inf :=
  ⟨(c7_wpm_formula.2.1 c1s1 0 100 (by decide) (by decide)).1 (by norm_num),
   (c7_wpm_formula.2.1 c7s1 5 5 (by decide) (by decide)).2.1 rfl (by decide)⟩

/-- C8: `generateSuggestions` returns exactly the aggregated entries,
sorted descending by score and truncated to `max`: every returned entry
carries the spec score (history error counts, plus 1.2 times the
current-session count, times 0.4 for a whitespace character); the output
is sorted descending with at most `max` entries, each character at most
once; every returned character has a recorded entry; a recorded character
missing from the output means the output was truncated at exactly `max`
entries, all of which score at least as high; below the `max` cutoff every
recorded character appears.  The worked example ranks `'t'` alone with
score 5.4, and no recorded errors anywhere yield an empty ranking. -/
theorem c8_rank_scores :
    (∀ (hist : List SuggestSession) (cur : List (SKey × ℚ)) (max : Nat)
        (e : SKey × ℚ), e ∈ generateSuggestions hist cur max →
      e.2 = specScore hist cur e.1) ∧
    (∀ (hist : List SuggestSession) (cur : List (SKey × ℚ)) (max : Nat),
      SortedDesc (generateSuggestions hist cur max) ∧
      (generateSuggestions hist cur max).length ≤ max) ∧
    (∀ (hist : List SuggestSession) (cur : List (SKey × ℚ)) (max : Nat),
      (mkeys (generateSuggestions hist cur max)).Nodup) ∧
    (∀ (hist : List SuggestSession) (cur : List (SKey × ℚ)) (max : Nat)
        (e : SKey × ℚ), e ∈ generateSuggestions hist cur max →
      charged hist cur e.1) ∧
    (∀ (hist : List SuggestSession) (cur : List (SKey × ℚ)) (max : Nat)
        (k : SKey), charged hist cur k →
      k ∉ mkeys (generateSuggestions hist cur max) →
      (generateSuggestions hist cur max).length = max ∧
      ∀ e ∈ generateSuggestions hist cur max, specScore hist cur k ≤ e.2) ∧
    (∀ (hist : List SuggestSession) (cur : List (SKey × ℚ)) (max : Nat)
        (k : SKey), charged hist cur k →
      (generateSuggestions hist cur max).length < max →
      k ∈ mkeys (generateSuggestions hist cur max)) ∧
    generateSuggestions [⟨[(some 't', 3)]⟩] [(some 't', 2)] 10 =
      [(some 't', 27 / 5)] ∧
    (∀ (hist : List SuggestSession) (cur : List (SKey × ℚ)) (max : Nat),
      (∀ s ∈ hist, s.errorMap = []) → cur = [] →
      generateSuggestions hist cur max = []) := by
  refine ⟨suggestions_entry_score, ?_, suggestions_keys_nodup,
    suggestions_entry_charged, suggestions_missing_key, ?_, ?_,
    suggestions_of_no_errors⟩
  · intro hist cur max
    exact ⟨suggestions_sorted hist cur max, suggestions_length hist cur max⟩
  · intro hist cur max k hch hlt
    by_contra hnot
    have hlen := (suggestions_missing_key hist cur max k hch hnot).1
    omega
  · norm_num +decide [generateSuggestions, bump, sortDesc, insertDesc,
      keyWhitespace, jsWhitespace]

/-- C8 witness: the score formula applies to the worked example's entry,
that entry's character is recorded; with `max = 0` a recorded character is
missing only because the output was truncated at exactly `max` entries;
below the cutoff the recorded `'t'` appears; and the empty-input case
returns the empty ranking. -/
theorem c8_rank_scores_witness :
    ((some 't', (27 : ℚ) / 5) : SKey × ℚ).2 =
      specScore [⟨[(some 't', 3)]⟩] [(some 't', 2)]
        ((some 't', (27 : ℚ) / 5) : SKey × ℚ).1 ∧
    charged [⟨[(some 't', 3)]⟩] [(some 't', 2)]
      ((some 't', (27 : ℚ) / 5) : SKey × ℚ).1 ∧
    ((generateSuggestions [⟨[(some 't', 3)]⟩] [] 0).length = 0 ∧
      ∀ e ∈ generateSuggestions [⟨[(some 't', 3)]⟩] [] 0,
        specScore [⟨[(some 't', 3)]⟩] [] (some 't') ≤ e.2) ∧
    some 't' ∈ mkeys (generateSuggestions [⟨[(some 't', 3)]⟩] [] 10) ∧
    generateSuggestions [] [] 5 = [] :=
  ⟨c8_rank_scores.1 [⟨[(some 't', 3)]⟩] [(some 't', 2)] 10
      (some 't', (27 : ℚ) / 5)
      (by rw [c8_rank_scores.2.2.2.2.2.2.1]; exact List.mem_singleton.mpr rfl),
   c8_rank_scores.2.2.2.1 [⟨[(some 't', 3)]⟩] [(some 't', 2)] 10
      (some 't', (27 : ℚ) / 5)
      (by rw [c8_rank_scores.2.2.2.2.2.2.1]; exact List.mem_singleton.mpr rfl),
   c8_rank_scores.2.2.2.2.1 [⟨[(some 't', 3)]⟩] [] 0 (some 't')
      (by simp [charged])
      (by simp [generateSuggestions_eq, mkeys]),
   c8_rank_scores.2.2.2.2.2.1 [⟨[(some 't', 3)]⟩] [] 10 (some 't')
      (by simp [charged])
      (by norm_num +decide [generateSuggestions, bump, sortDesc, insertDesc,
        keyWhitespace, jsWhitespace]),
   c8_rank_scores.2.2.2.2.2.2.2 [] [] 5
      (fun s hs => absurd hs (List.not_mem_nil s)) rfl⟩

/-- C9: the suggestion ranking is pure: threading the inputs through the
computation returns them unchanged, a second call on the returned inputs
yields the same output, and the output coincides with the plain function of
the argument values. -/
theorem c9_rank_pure :
    ∀ (inp : SuggestInputs) (max : Nat),
      (rankTracked inp max).2 = inp ∧
      (rankTracked (rankTracked inp max).2 max).1 = (rankTracked inp max).1 ∧
      (rankTracked inp max).1 =
        generateSuggestions inp.historySessions inp.currentErrorMap max :=
  fun _ _ => ⟨rfl, rfl, rfl⟩

/-- C10: loading a new text mid-session (cursor strictly below the text
length) leaves the history and the completion log untouched, and a
keystroke changes the history only when it leaves the cursor at the text
length (natural completion). -/
theorem c10_abandon_no_persist (s : EngineState) (text : List Char) (t : ℚ)
    (_hprog : s.cursor < s.testText.length) :
    (loadText s text t).history = s.history ∧
    (loadText s text t).completions = s.completions ∧
    (∀ (key : Char) (now : ℚ), (handleKey s key now).history ≠ s.history →
      (handleKey s key now).testText.length ≤ (handleKey s key now).cursor) :=
  ⟨rfl, rfl, fun key now h => handleKey_history_only_finished s key now h⟩

/-- C10 witness: abandoning the half-typed `"ab"` session by loading a new
text leaves history and completions empty. -/
theorem c10_abandon_no_persist_witness :
    (loadText c3s1 ['z'] 500).history = c3s1.history ∧
    (loadText c3s1 ['z'] 500).completions = c3s1.completions ∧
    (∀ (key : Char) (now : ℚ), (handleKey c3s1 key now).history ≠ c3s1.history →
      (handleKey c3s1 key now).testText.length ≤ (handleKey c3s1 key now).cursor) :=
  c10_abandon_no_persist c3s1 ['z'] 500 (by decide)

end TypeFlow
